import Mathlib

/-!
# A shallow embedding of the cxx-lox bytecode VM and compiler

This file embeds, in Lean, the parts of the cxx-lox sources (a C
implementation of the Lox language from Crafting Interpreters, Part III)
that the specification's claims are about:

* the string-concatenation path of `OP_ADD` (`src/lib/vm.c`, `concatenate`
  and the `OP_ADD` case of `run`);
* the call machinery (`call`, `callValue` in `src/lib/vm.c`);
* the open-upvalue list (`captureUpvalue`, `closeUpvalues` in `src/lib/vm.c`);
* the closure analysis of the compiler (`resolveLocal`, `addUpvalue`,
  `resolveUpvalue` in `src/lib/compiler.c`);
* the constant pool (`addConstant` in `src/lib/chunk.c`, `makeConstant` in
  `src/lib/compiler.c`, the `ValueArray` layout of `include/value.h`);
* the open-addressed hash table (`findEntry`, `tableSet`, `tableGet`,
  `tableDelete`, `adjustCapacity` in `src/lib/table.c`) and the
  `OP_SET_GLOBAL` case of `run`.

Modelling conventions.  Machine integers are modelled as `Nat` with an
explicit `% 256` where the C type is `uint8_t` and overflow matters; the
`uint32_t`/`size_t` counters of the table and VM never overflow in any
reachable execution and are plain `Nat`.  C pointers into the value stack
are modelled as slot indices (a larger slot index is a larger address).
Heap objects that the claims only ever read are inlined into `Value`;
the headers shipped in the tree are stale snapshots (the spec, Design
Notes, says the most featureful variant is authoritative), so the class /
instance / bound-method payloads, absent from `include/object.h`, follow
their uses in `vm.c`/`object.c` and the spec's data-model table.
Interned strings are identified with their contents (for inline tables)
or with an id/hash pair (for the concrete hash-table model), reflecting
the interning invariant that string equality is pointer equality.
-/

namespace CxxLox

/-! ## Values (include/value.h, include/object.h and the final object layouts) -/

/-- `ObjFunction` (object.h): arity, upvalue count, optional name.  The
bytecode chunk is omitted: no claim inspects a function's code. -/
structure ObjFunction where
  arity : Nat
  upvalueCount : Nat
  name : Option String
  deriving Repr, DecidableEq

/-- `ObjClosure` (object.h): the function it wraps.  The captured-upvalue
array is omitted: the claims below never execute `OP_GET_UPVALUE` /
`OP_CLOSURE`; the open-upvalue list itself is modelled separately. -/
structure ObjClosure where
  func : ObjFunction
  deriving Repr, DecidableEq

/-- `ObjClass` (final object layout, per its uses in vm.c/object.c):
name and a method table mapping interned method names to closures.
The method table is a hash table in C; since its keys are interned
strings it is modelled as an association list. -/
structure ObjClass where
  name : String
  methods : List (String × ObjClosure)
  deriving Repr, DecidableEq

/-- `Value` (value.h, tagged-union layout) together with the heap-object
variants the claims touch.  Numbers are IEEE-754 doubles in C; the claims
never perform numeric arithmetic whose rounding could matter, so `Int`
stands in.  Instances carry their class and field table inline. -/
inductive Value where
  | vnil
  | vbool (b : Bool)
  | vnum (n : Int)
  | vstr (s : String)
  | vclosure (c : ObjClosure)
  | vclass (k : ObjClass)
  | vinstance (klass : ObjClass) (fields : List (String × Value))
  | vbound (receiver : Value) (method : ObjClosure)
  | vnative (arity : Nat)
  deriving Repr

/-- `IS_NIL` as a boolean test (used by the table's tombstone test). -/
def Value.isNilV : Value → Bool
  | .vnil => true
  | _ => false

/-- `AS_STRING` guarded by `IS_STRING`. -/
def Value.asString : Value → Option String
  | .vstr s => some s
  | _ => none

/-! ## The VM state fragment used by call-related claims (include/vm.h, vm.c)

The value stack is a list whose HEAD is the top of the C stack, so
`peek(vm, d)` is `stack.get? d` and `vm->stackTop[-1 - d]` likewise.
A call frame's `slots` pointer is its base index measured from the bottom
of the stack; it is an `Int` because `vm->stackTop - argCount - 1` can
point below the stack base after `resetStack`. -/

structure CallFrame where
  closure : ObjClosure
  ip : Nat
  slots : Int
  deriving Repr, DecidableEq

structure VMState where
  stack : List Value
  frames : List CallFrame
  openUpvalues : List Nat
  deriving Repr

/-- vm.c `FRAMES_MAX` (vm.h: 64). -/
def FRAMES_MAX : Nat := 64

/-- vm.c `resetStack`, which `runtimeError` calls after printing the stack
trace: stack top back to the base, frame count zero, open upvalues gone. -/
def resetStack (st : VMState) : VMState :=
  { st with stack := [], frames := [], openUpvalues := [] }

/-- vm.c `runtimeError`: prints the message and trace (not modelled) and
calls `resetStack`. -/
def runtimeError (st : VMState) : VMState :=
  resetStack st

/-- vm.c `call`.  Note the transcription of the source faithfully keeps its
control flow: on `frameCount == FRAMES_MAX` it calls `runtimeError` but has
no `return`, so it still builds a frame (in the frame array that
`resetStack` has just emptied) and returns `true`. -/
def call (st : VMState) (closure : ObjClosure) (argCount : Nat) :
    Bool × VMState :=
  if argCount ≠ closure.func.arity then
    (false, runtimeError st)
  else
    let st1 := if st.frames.length = FRAMES_MAX then runtimeError st else st
    let frame : CallFrame :=
      { closure := closure, ip := 0,
        slots := (st1.stack.length : Int) - argCount - 1 }
    (true, { st1 with frames := st1.frames ++ [frame] })

/-- object.c `newInstance`: a fresh instance of `klass` with an empty field
table (heap identity is not needed by the claims below). -/
def newInstance (klass : ObjClass) : Value :=
  .vinstance klass []

/-- vm.c `callValue`.  The `OBJ_CLASS` case is transcribed as written:
it overwrites `stackTop[-argCount - 1]` with a new instance and returns
`true` immediately — there is no `init` lookup and no check of
`argCount`.  The native case abstracts the host function's result as
`vnil` (only `clock` exists and no claim calls it). -/
def callValue (st : VMState) (callee : Value) (argCount : Nat) :
    Bool × VMState :=
  match callee with
  | .vbound receiver method =>
      call { st with stack := st.stack.set argCount receiver } method argCount
  | .vclass k =>
      (true, { st with stack := st.stack.set argCount (newInstance k) })
  | .vclosure c =>
      call st c argCount
  | .vnative arity =>
      if argCount ≠ arity then (false, runtimeError st)
      else (true, { st with stack := .vnil :: st.stack.drop (argCount + 1) })
  | _ => (false, runtimeError st)

/-! ## OP_ADD and concatenate (vm.c) -/

/-- vm.c `concatenate`.  The source reads BOTH operands with
`peek(vm, 0)`: `b = AS_STRING(peek(vm, 0)); a = AS_STRING(peek(vm, 0));`,
so `a` and `b` are the same (topmost) string.  The result is interned by
`takeString`; at the value level interning is invisible, so the result is
the string value itself.  Both operands are then popped and the result
pushed. -/
def concatenate (stack : List Value) : Option (List Value) := do
  let b ← Value.asString (← stack.get? 0)
  let a ← Value.asString (← stack.get? 0)
  let s := a ++ b
  some (Value.vstr s :: stack.drop 2)

/-- The `OP_ADD` case of vm.c `run`: two strings concatenate, two numbers
add, anything else is the "Operands must be two numbers or two strings."
runtime error (`none`). -/
def opAdd (stack : List Value) : Option (List Value) :=
  match stack with
  | v0 :: v1 :: rest =>
    match v0, v1 with
    | .vstr _, .vstr _ => concatenate (v0 :: v1 :: rest)
    | .vnum b, .vnum a => some (.vnum (a + b) :: rest)
    | _, _ => none
  | _ => none

/-! ## The instruction dispatch fragment used by the invocation claim (vm.c run)

`run` is a switch over the opcode byte.  The compiler (compiler.c `dot`)
emits `OP_INVOKE name argCount` for `obj.name(args)`, but the switch in
vm.c has no `OP_INVOKE` case (nor `OP_GET_SUPER` / `OP_SUPER_INVOKE` /
`OP_INHERIT`): dispatch falls out of the switch without touching the VM
state, and in the real byte stream the two operand bytes would then be
decoded as opcodes.  At the instruction granularity used here the net
effect of the missing case is: no state transition. -/

inductive Instr where
  | getProperty (name : String)
  | callOp (argCount : Nat)
  | invoke (name : String) (argCount : Nat)
  deriving Repr, DecidableEq

/-- One step of the vm.c `run` dispatch for the three instructions above.
`none` is a runtime error ("Only instances have properties." /
"Undefined property" / a false return from `callValue`). -/
def execInstr (st : VMState) : Instr → Option VMState
  | .getProperty name =>
    match st.stack with
    | .vinstance klass fields :: rest =>
      match fields.lookup name with
      | some v => some { st with stack := v :: rest }
      | none =>
        match klass.methods.lookup name with
        | some m =>
          some { st with stack := .vbound (.vinstance klass fields) m :: rest }
        | none => none
    | _ => none
  | .callOp argCount =>
    match st.stack.get? argCount with
    | some callee =>
      match callValue st callee argCount with
      | (true, st1) => some st1
      | (false, _) => none
    | none => none
  | .invoke _ _ => some st

/-- Executing a straight-line instruction sequence. -/
def execSeq (st : VMState) (prog : List Instr) : Option VMState :=
  prog.foldlM execInstr st

/-! ## Compiler closure analysis (compiler.c) -/

/-- compiler.h `Local`: token name, scope depth (−1 while uninitialized),
capture flag. -/
structure CLocal where
  name : String
  depth : Int
  isCaptured : Bool
  deriving Repr, DecidableEq

/-- compiler.h `Upvalue`: captured slot (a `uint8_t` in C) and whether it
is a local of the directly enclosing function. -/
structure Upvalue where
  index : Nat
  isLocal : Bool
  deriving Repr, DecidableEq

/-- common.h `UINT8_COUNT`. -/
def UINT8_COUNT : Nat := 256

/-- compiler.c `resolveLocal`: scan the locals from the highest index down
and return the first whose name matches.  (When that local's depth is −1
the C code also reports "Can't read local variable in its own
initializer." but still returns the index; the error flag is not
modelled.) -/
def resolveLocal (locals : List CLocal) (name : String) : Option Nat :=
  (List.range locals.length).reverse.find? fun i =>
    match locals.get? i with
    | some l => l.name == name
    | none => false

/-- compiler.c `addUpvalue`, acting on the compiler's upvalue list (the
list length is `func->upvalueCount`).  The dedup loop returns the position
of an entry whose `(index, isLocal)` pair matches.  Otherwise the source
appends with `upvalue.isLocal = isLocal; upvalue.index = (index = isLocal)`
— the `uint8_t` parameter `index` is overwritten by the Bool `isLocal`
(0 or 1) before being stored.  On the 256-entry limit the C code reports
"Too many closure variables in function." and returns 0 (error flag not
modelled). -/
def addUpvalue (upvalues : List Upvalue) (index : Nat) (isLocal : Bool) :
    Nat × List Upvalue :=
  match upvalues.findIdx? (fun u => u.index == index && u.isLocal == isLocal) with
  | some idx => (idx, upvalues)
  | none =>
    if upvalues.length = UINT8_COUNT then (0, upvalues)
    else (upvalues.length,
          upvalues ++ [{ index := if isLocal then 1 else 0, isLocal := isLocal }])

/-- A compiler chain (compiler.h `Compiler`): the fields the closure
analysis reads, with `enclosing == NULL` as the `base` constructor. -/
inductive Comp where
  | base (locals : List CLocal) (upvalues : List Upvalue)
  | nest (locals : List CLocal) (upvalues : List Upvalue) (enclosing : Comp)
  deriving Repr, DecidableEq

def Comp.locals : Comp → List CLocal
  | .base l _ => l
  | .nest l _ _ => l

def Comp.upvalues : Comp → List Upvalue
  | .base _ u => u
  | .nest _ u _ => u

/-- `compiler->enclosing->locals[local].isCaptured = true`, on the
compiler's own locals.  (An index beyond the local count addresses a stale
slot of the fixed 256-entry C array; modelled as no change.) -/
def Comp.markCaptured : Comp → Nat → Comp
  | .base l u, i =>
    match l.get? i with
    | some loc => .base (l.set i { loc with isCaptured := true }) u
    | none => .base l u
  | .nest l u enc, i =>
    match l.get? i with
    | some loc => .nest (l.set i { loc with isCaptured := true }) u enc
    | none => .nest l u enc

/-- compiler.c `resolveUpvalue`, transcribed with its control flow as
written: with no enclosing compiler the result is not-found; otherwise it
calls `resolveLocal(parser, compiler, name)` — on the CURRENT compiler's
locals, not the enclosing one's — and on a hit flags
`compiler->enclosing->locals[local]` as captured and adds a local upvalue;
otherwise it recurses on the enclosing compiler and on success adds a
non-local upvalue.  The updated compiler chain is returned alongside the
result. -/
def resolveUpvalue : Comp → String → Option Nat × Comp
  | .base l u, _ => (none, .base l u)
  | .nest l u enc, name =>
    match resolveLocal l name with
    | some localIdx =>
      let enc1 := enc.markCaptured localIdx
      let (idx, u1) := addUpvalue u localIdx true
      (some idx, .nest l u1 enc1)
    | none =>
      match resolveUpvalue enc name with
      | (some upIdx, enc1) =>
        let (idx, u1) := addUpvalue u upIdx false
        (some idx, .nest l u1 enc1)
      | (none, enc1) => (none, .nest l u enc1)

/-! ## Open-upvalue list (vm.c captureUpvalue / closeUpvalues)

`vm->openUpvalues` threads the open upvalues by decreasing stack-slot
address; each open upvalue is identified here by the stack slot its
`location` points to.  A larger slot index is a larger address. -/

/-- vm.c `captureUpvalue`: walk the list while `upvalue->location > local`;
return a matching existing upvalue, or link a fresh one in place.  The
first component is the slot of the returned upvalue. -/
def captureUpvalue : List Nat → Nat → Nat × List Nat
  | [], slot => (slot, [slot])
  | u :: rest, slot =>
    if slot < u then
      let (r, rest1) := captureUpvalue rest slot
      (r, u :: rest1)
    else if u = slot then (u, u :: rest)
    else (slot, slot :: u :: rest)

/-- vm.c `closeUpvalues`: pop (and close) list heads while
`openUpvalues->location >= last`. -/
def closeUpvalues : List Nat → Nat → List Nat
  | [], _ => []
  | u :: rest, last =>
    if last ≤ u then closeUpvalues rest last else u :: rest

/-! ## Constant pool (include/value.h, chunk.c addConstant, compiler.c
makeConstant)

`ValueArray` (value.h) declares BOTH `capacity` and `count` as `uint8_t`,
so their arithmetic wraps at 256.  `value.c` itself is not in the tree. -/

/-- The `ValueArray` of value.h.  `values` keeps every appended value (the
C array's reallocation is not observable at this level). -/
structure ValueArray where
  capacity : Nat
  count : Nat
  values : List Value
  deriving Repr

/-- value.c `initValueArray`, per its clox counterpart. -/
def initValueArray : ValueArray :=
  { capacity := 0, count := 0, values := [] }

/-- Modelled from the spec: `writeValueArray` — `value.c` is absent from
the tree (only `value.h` declares it); spec §4.2 calls the value array
"a simple amortized-growth sequence", so the write grows by
`GROW_CAPACITY` (memory.h: `< 8 ? 8 : * 2`) when full, appends the value
and increments `count`.  Both fields are `uint8_t` (value.h), hence the
`% 256`. -/
def writeValueArray (arr : ValueArray) (v : Value) : ValueArray :=
  let arr :=
    if arr.capacity < arr.count + 1 then
      { arr with capacity := (if arr.capacity < 8 then 8 else arr.capacity * 2) % 256 }
    else arr
  { arr with values := arr.values ++ [v], count := (arr.count + 1) % 256 }

/-- chunk.c `addConstant`: append and return `count - 1`.  The return type
is `uint8_t` and `count` is `uint8_t`, so the returned index is
`(count - 1) mod 256`. -/
def addConstant (constants : ValueArray) (v : Value) : Nat × ValueArray :=
  let c1 := writeValueArray constants v
  ((c1.count + 255) % 256, c1)

/-- compiler.c `makeConstant`: the result of `addConstant` is stored in a
`uint8_t` local before the `constant > UINT8_MAX` comparison, which is
therefore never true; the "Too many constants in one chunk." error path
(second component `true`) is unreachable. -/
def makeConstant (constants : ValueArray) (v : Value) : Nat × Bool × ValueArray :=
  let (constant, c1) := addConstant constants v
  if constant > 255 then (0, true, c1) else (constant, false, c1)

/-- `n` successive `makeConstant` calls on the same chunk (as compiling a
program with `n` distinct constants performs). -/
def addMany : Nat → ValueArray → ValueArray
  | 0, arr => arr
  | n + 1, arr => addMany n (makeConstant arr .vnil).2.2

/-! ## The open-addressed hash table (table.h, table.c)

Keys are interned `ObjString*`: distinct ids are distinct strings (the
interning invariant), and each key carries its 32-bit hash.  An entry with
`key == NULL` is a true empty when its value is `nil` and a tombstone when
its value is `true` (exactly as `findEntry` and `tableDelete` use them).
The C probe loop `for (;;) { ...; index = (index + 1) % capacity; }`
relies on an empty slot existing to terminate; the model gives the walk
`capacity` steps of fuel (enough to visit every slot once) and returns
`none` where the C loop would never terminate. -/

structure StrKey where
  id : Nat
  hash : Nat
  deriving Repr, DecidableEq

structure Entry where
  key : Option StrKey
  value : Value
  deriving Repr

/-- table.h `Table`. `count` and `capacity` are `uint32_t` in C and never
overflow in a reachable execution; the capacity is `entries.length`. -/
structure Table where
  count : Nat
  entries : List Entry
  deriving Repr

/-- table.c `initTable`. -/
def initTable : Table :=
  { count := 0, entries := [] }

/-- The probe loop body of table.c `findEntry`: current index and the
first tombstone seen so far. -/
def findEntryAux (entries : List Entry) (key : StrKey) :
    Nat → Nat → Option Nat → Option Nat
  | 0, _, _ => none
  | fuel + 1, index, tombstone =>
    match entries.get? index with
    | none => none
    | some e =>
      match e.key with
      | none =>
        if e.value.isNilV then
          some (tombstone.getD index)
        else
          findEntryAux entries key fuel ((index + 1) % entries.length)
            (some (tombstone.getD index))
      | some k =>
        if k = key then some index
        else findEntryAux entries key fuel ((index + 1) % entries.length) tombstone

/-- table.c `findEntry`: probe linearly from `hash % capacity`; the first
matching key ends the probe, and a true-empty slot ends it yielding the
first tombstone passed, if any, else the empty slot itself. -/
def findEntry (entries : List Entry) (key : StrKey) : Option Nat :=
  findEntryAux entries key entries.length (key.hash % entries.length) none

/-- The loop body of table.c `adjustCapacity`: skip keyless entries,
re-insert a keyed entry at its probe position in the new array and count
it.  (`findEntry` on the fresh array cannot fail while fewer entries than
slots have been placed; `none` is modelled as skipping, matching the C
loop that would otherwise not terminate.) -/
def adjustStep (acc : List Entry × Nat) (e : Entry) : List Entry × Nat :=
  match e.key with
  | none => acc
  | some k =>
    match findEntry acc.1 k with
    | some idx => (acc.1.set idx ⟨some k, e.value⟩, acc.2 + 1)
    | none => acc

/-- table.c `adjustCapacity`: allocate `capacity` empty slots, re-insert
every keyed entry at its new probe position, recount, discard the old
array. -/
def adjustCapacity (t : Table) (capacity : Nat) : Table :=
  let acc := t.entries.foldl adjustStep (List.replicate capacity ⟨none, .vnil⟩, 0)
  { count := acc.2, entries := acc.1 }

/-- The growth step at the head of table.c `tableSet`:
`count + 1 > capacity * TABLE_MAX_LOAD` with `TABLE_MAX_LOAD = 0.75`; the
double arithmetic is exact here, so the test is `4*(count+1) > 3*capacity`,
and the new capacity is `GROW_CAPACITY` (memory.h). -/
def growIfNeeded (t : Table) : Table :=
  if 4 * (t.count + 1) > 3 * t.entries.length then
    adjustCapacity t (if t.entries.length < 8 then 8 else t.entries.length * 2)
  else t

/-- table.c `tableSet`: grow if needed, probe, remember whether the found
slot was keyless (`isNewKey`), bump `count` exactly on `isNewKey` —
whether or not the slot is a tombstone — and store the pair.  Returns
`isNewKey` and the new table. -/
def tableSet (t : Table) (key : StrKey) (value : Value) :
    Option (Bool × Table) :=
  let t1 := growIfNeeded t
  match findEntry t1.entries key with
  | none => none
  | some idx =>
    let isNewKey :=
      match t1.entries.get? idx with
      | some e => e.key.isNone
      | none => false
    some (isNewKey,
      { count := if isNewKey then t1.count + 1 else t1.count,
        entries := t1.entries.set idx ⟨some key, value⟩ })

/-- table.c `tableGet`: empty table fails fast; a probe ending on a
keyless slot is a miss. -/
def tableGet (t : Table) (key : StrKey) : Option Value :=
  if t.count = 0 then none
  else
    match findEntry t.entries key with
    | none => none
    | some idx =>
      match t.entries.get? idx with
      | some e =>
        match e.key with
        | none => none
        | some _ => some e.value
      | none => none

/-- table.c `tableDelete`: locate the key and write a tombstone
(`key = NULL`, `value = true`); `count` is left unchanged. -/
def tableDelete (t : Table) (key : StrKey) : Bool × Table :=
  if t.count = 0 then (false, t)
  else
    match findEntry t.entries key with
    | none => (false, t)
    | some idx =>
      match t.entries.get? idx with
      | none => (false, t)
      | some e =>
        match e.key with
        | none => (false, t)
        | some _ =>
          (true, { t with entries := t.entries.set idx ⟨none, .vbool true⟩ })

/-- The `OP_SET_GLOBAL` case of vm.c `run`: `tableSet` into the globals
with the top of the stack; when the key was new, the tentative binding is
`tableDelete`d, "Undefined variable" is reported and the dispatch returns
`INTERPRETER_RUNTIME_ERR` (first component `true`); otherwise execution
continues (the value stays on the stack). -/
def opSetGlobal (globals : Table) (name : StrKey) (top : Value) :
    Option (Bool × Table) :=
  match tableSet globals name top with
  | none => none
  | some (true, g1) => some (true, (tableDelete g1 name).2)
  | some (false, g1) => some (false, g1)

/-! ## Concrete states used by the claim theorems -/

/-- A closure of arity 0 (the shape of the top-level script closure). -/
def arity0 : ObjClosure :=
  ⟨{ arity := 0, upvalueCount := 0, name := none }⟩

/-- A VM state whose frame array is full (`frameCount == FRAMES_MAX`). -/
def fullFramesState : VMState :=
  { stack := [Value.vclosure arity0],
    frames := List.replicate FRAMES_MAX { closure := arity0, ip := 0, slots := 0 },
    openUpvalues := [] }

/-- An `init` method of arity 1. -/
def initMethod : ObjClosure :=
  ⟨{ arity := 1, upvalueCount := 0, name := some "init" }⟩

/-- A class whose method table contains `init`. -/
def klassC : ObjClass :=
  { name := "C", methods := [("init", initMethod)] }

/-- The stack just before `OP_CALL 1` on `klassC`: the argument 42 on top,
the class value below it; one (script) frame is active. -/
def classCallState : VMState :=
  { stack := [Value.vnum 42, Value.vclass klassC],
    frames := [{ closure := arity0, ip := 0, slots := 0 }],
    openUpvalues := [] }

/-- A zero-argument method `m`. -/
def methodM : ObjClosure :=
  ⟨{ arity := 0, upvalueCount := 0, name := some "m" }⟩

/-- A class with method `m` and no fields anywhere. -/
def klassA : ObjClass :=
  { name := "A", methods := [("m", methodM)] }

/-- A state with an instance of `klassA` on top of the stack and one
active frame. -/
def invokeState : VMState :=
  { stack := [Value.vinstance klassA []],
    frames := [{ closure := arity0, ip := 0, slots := 0 }],
    openUpvalues := [] }

/-- A script compiler (no enclosing one) owning the local `x` in slot 1. -/
def scriptComp : Comp :=
  .base [{ name := "", depth := 0, isCaptured := false },
         { name := "x", depth := 1, isCaptured := false }] []

/-- A function compiler directly nested in `scriptComp`; `x` is not among
its locals. -/
def innerComp : Comp :=
  .nest [{ name := "", depth := 0, isCaptured := false }] [] scriptComp

/-- The constant pool after 256 `makeConstant` calls. -/
def pool256 : ValueArray :=
  addMany 256 initValueArray

/-- No slot of `entries` stores `k`. -/
def keyAbsent (entries : List Entry) (k : StrKey) : Prop :=
  ∀ e ∈ entries, e.key ≠ some k

/-- A true-empty slot: no key and a `nil` value (a keyless slot with value
`true` is a tombstone). -/
def Entry.trueEmpty (e : Entry) : Bool :=
  e.key.isNone && e.value.isNilV

/-- The number of slots that are not true-empty (live keys plus
tombstones). -/
def nonEmptyCount (entries : List Entry) : Nat :=
  entries.countP (fun e => !e.trueEmpty)

/-- A capacity-8 table holding one tombstone (at slot 0) and seven true
empties — the state left by inserting and then deleting a key of hash 0;
`count` is 1, as the delete does not decrement it. -/
def tombTable : Table :=
  { count := 1,
    entries := ⟨none, .vbool true⟩ :: List.replicate 7 ⟨none, .vnil⟩ }

/-- A fresh key whose probe starts at the tombstone slot of `tombTable`. -/
def newKey : StrKey := ⟨2, 0⟩

/-- The key used by the C8 witness. -/
def freshKey : StrKey := ⟨3, 0⟩

/-- An empty capacity-8 table. -/
def emptyTable8 : Table :=
  { count := 0, entries := List.replicate 8 ⟨none, .vnil⟩ }

/-- `emptyTable8` after inserting `freshKey`. -/
def setTable8 : Table :=
  { count := 1,
    entries := ⟨some freshKey, .vnum 7⟩ :: List.replicate 7 ⟨none, .vnil⟩ }

/-! ## Claims C1 to C7 -/

/-- Claim C1, refuted by evaluating the source: with the string "hi" below
the top of the stack and "!" on top, `OP_ADD` pushes "!!" — `concatenate`
reads both of its operands with `peek(vm, 0)`, so the claimed result
"hi!" (the bytes of the lower string followed by the bytes of the top
one) is not produced. -/
theorem opAdd_duplicates_top_string :
    opAdd [Value.vstr "!", Value.vstr "hi"] = some [Value.vstr "!!"] ∧
      ("!!" : String) ≠ "hi!" := by
  exact ⟨rfl, by decide⟩

/-- Claim C2, refuted by evaluating the source: calling a class whose
method table does contain `init`, with one argument, `callValue`
overwrites the slot below the argument with a fresh instance and returns
`true` without invoking `init` (no frame is pushed) and without raising
an arity error; the argument is left on the stack. -/
theorem callValue_class_skips_init :
    klassC.methods.lookup "init" = some initMethod ∧
    callValue classCallState (Value.vclass klassC) 1 =
      (true, { classCallState with
                 stack := [Value.vnum 42, Value.vinstance klassC []] }) := by
  exact ⟨rfl, rfl⟩

/-- Claim C3, refuted by evaluating the source: on a state whose top of
stack is an instance of a class with method `m` (and no field `m`), the
sequence `GET_PROPERTY m; CALL 0` enters the method (two frames active
afterwards), while `INVOKE m 0` — emitted by the compiler's `dot` rule —
hits no case of the `run` dispatch switch and changes nothing (one frame
active), so the two are not observationally equivalent. -/
theorem invoke_not_equivalent_to_property_call :
    (execSeq invokeState [.getProperty "m", .callOp 0]).map
        (fun s => s.frames.length) = some 2 ∧
    (execSeq invokeState [.invoke "m" 0]).map
        (fun s => s.frames.length) = some 1 := by
  exact ⟨rfl, rfl⟩

/-- Claim C4, refuted by evaluating the source: appending an upvalue with
`index = 5, isLocal = true` to an empty upvalue list stores `index = 1` —
`upvalue->index = index = isLocal` overwrites the index with the boolean
before storing it. -/
theorem addUpvalue_stores_bool_as_index :
    addUpvalue [] 5 true = (0, [{ index := 1, isLocal := true }]) ∧
      (1 : Nat) ≠ 5 := by
  exact ⟨rfl, by decide⟩

/-- Claim C5, refuted by evaluating the source: `x` resolves as a local
(slot 1) of the enclosing (script) compiler, yet `resolveUpvalue` on the
nested compiler returns not-found and leaves the chain untouched — the
source calls `resolveLocal` on the current compiler instead of the
enclosing one, so the recursion bottoms out without ever searching the
script compiler's locals. -/
theorem resolveUpvalue_misses_enclosing_local :
    resolveLocal scriptComp.locals "x" = some 1 ∧
    resolveUpvalue innerComp "x" = (none, innerComp) := by
  exact ⟨rfl, rfl⟩

/-- Claim C6, refuted by evaluating the source: a closure call attempted
with `frameCount == FRAMES_MAX` returns `true` and leaves one (fresh)
frame in the just-reset frame array — `call` invokes `runtimeError` but
has no `return false`, so the interpretation is not aborted. -/
theorem call_at_frames_max_continues :
    (call fullFramesState arity0 0).1 = true ∧
    ((call fullFramesState arity0 0).2).frames.length = 1 := by
  exact ⟨rfl, rfl⟩

/-- `writeValueArray` appends exactly one value and bumps the wrapped
count; the growth branch only touches `capacity`. -/
lemma writeValueArray_values_count (arr : ValueArray) (v : Value) :
    (writeValueArray arr v).values = arr.values ++ [v] ∧
    (writeValueArray arr v).count = (arr.count + 1) % 256 := by
  unfold writeValueArray
  split <;> exact ⟨rfl, rfl⟩

/-- The error branch of `makeConstant` is unreachable: the index returned
by `addConstant` is a `uint8_t`, hence never greater than 255. -/
lemma makeConstant_eq (arr : ValueArray) (v : Value) :
    makeConstant arr v =
      (((arr.count + 1) % 256 + 255) % 256, false, writeValueArray arr v) := by
  have h : ((arr.count + 1) % 256 + 255) % 256 < 256 := Nat.mod_lt _ (by norm_num)
  simp only [makeConstant, addConstant, (writeValueArray_values_count arr v).2,
    gt_iff_lt]
  rw [if_neg (by omega)]

/-- `n` `makeConstant` calls append `n` values while the `uint8_t` count
advances mod 256. -/
lemma addMany_spec (n : Nat) :
    ∀ arr : ValueArray, arr.count < 256 →
      (addMany n arr).values.length = arr.values.length + n ∧
      (addMany n arr).count = (arr.count + n) % 256 := by
  induction n with
  | zero =>
    intro arr h
    exact ⟨rfl, (Nat.mod_eq_of_lt h).symm⟩
  | succ m ih =>
    intro arr h
    have hstep : (makeConstant arr .vnil).2.2 = writeValueArray arr .vnil := by
      rw [makeConstant_eq]
    have hw := writeValueArray_values_count arr .vnil
    unfold addMany
    rw [hstep]
    obtain ⟨ihl, ihc⟩ := ih (writeValueArray arr .vnil)
      (by rw [hw.2]; exact Nat.mod_lt _ (by norm_num))
    constructor
    · rw [ihl, hw.1]
      simp [List.length_append]
      omega
    · rw [ihc, hw.2, Nat.mod_add_mod]
      congr 1
      omega

/-- Claim C7, refuted by evaluating the source: after 256 constants the
pool's `uint8_t` count has wrapped to 0; the 257th `makeConstant` reports
no error (the `constant > UINT8_MAX` test compares a `uint8_t` and is
never true), returns the wrapped index 0 — aliasing the first constant —
and the pool then holds 257 values. -/
theorem makeConstant_257th_wraps_silently :
    pool256.values.length = 256 ∧
    pool256.count = 0 ∧
    (makeConstant pool256 .vnil).2.1 = false ∧
    (makeConstant pool256 .vnil).1 = 0 ∧
    (makeConstant pool256 .vnil).2.2.values.length = 257 := by
  obtain ⟨hlen, hcount⟩ := addMany_spec 256 initValueArray (by decide)
  have hlen' : pool256.values.length = 256 := hlen
  have hcount' : pool256.count = 0 := hcount
  have hmk := makeConstant_eq pool256 .vnil
  have hw := writeValueArray_values_count pool256 .vnil
  refine ⟨hlen', hcount', ?_, ?_, ?_⟩
  · rw [hmk]
  · rw [hmk, hcount']
  · rw [hmk]
    simp only
    rw [hw.1]
    simp [List.length_append, hlen']

/-! ## Claim C9: the open-upvalue list invariant

"Sorted in descending stack-slot order with no duplicates" is
`List.Pairwise (· > ·)`: every earlier slot is strictly greater than every
later one, which in particular forbids two upvalues on the same slot. -/

/-- Every element of the list `captureUpvalue` produces is either the
requested slot or came from the input list. -/
lemma captureUpvalue_mem (l : List Nat) (slot : Nat) :
    ∀ x ∈ (captureUpvalue l slot).2, x = slot ∨ x ∈ l := by
  induction l with
  | nil =>
    intro x hx
    simp [captureUpvalue] at hx
    exact Or.inl hx
  | cons u rest ih =>
    intro x hx
    by_cases h1 : slot < u
    · simp only [captureUpvalue, if_pos h1] at hx
      rcases List.mem_cons.mp hx with h | h
      · exact Or.inr (by simp [h])
      · rcases ih x h with h2 | h2
        · exact Or.inl h2
        · exact Or.inr (List.mem_cons_of_mem _ h2)
    · by_cases h2 : u = slot
      · simp only [captureUpvalue, if_neg h1, if_pos h2] at hx
        rcases List.mem_cons.mp hx with h | h
        · exact Or.inl (h.trans h2)
        · exact Or.inr (List.mem_cons_of_mem _ h)
      · simp only [captureUpvalue, if_neg h1, if_neg h2] at hx
        rcases List.mem_cons.mp hx with h | h
        · exact Or.inl h
        · exact Or.inr h

/-- The requested slot is in the produced list. -/
lemma captureUpvalue_mem_self (l : List Nat) (slot : Nat) :
    slot ∈ (captureUpvalue l slot).2 := by
  induction l with
  | nil => simp [captureUpvalue]
  | cons u rest ih =>
    by_cases h1 : slot < u
    · simp only [captureUpvalue, if_pos h1]
      exact List.mem_cons_of_mem _ ih
    · by_cases h2 : u = slot
      · simp only [captureUpvalue, if_neg h1, if_pos h2]
        exact List.mem_cons.mpr (Or.inl h2.symm)
      · simp only [captureUpvalue, if_neg h1, if_neg h2]
        exact List.mem_cons.mpr (Or.inl rfl)

/-- `captureUpvalue` keeps the list sorted-descending. -/
lemma captureUpvalue_pairwise (l : List Nat) (slot : Nat)
    (h : List.Pairwise (· > ·) l) :
    List.Pairwise (· > ·) (captureUpvalue l slot).2 := by
  induction l with
  | nil => simp [captureUpvalue]
  | cons u rest ih =>
    obtain ⟨hu, hrest⟩ := List.pairwise_cons.mp h
    by_cases h1 : slot < u
    · simp only [captureUpvalue, if_pos h1]
      refine List.pairwise_cons.mpr ⟨?_, ih hrest⟩
      intro x hx
      rcases captureUpvalue_mem rest slot x hx with h2 | h2
      · omega
      · exact hu x h2
    · by_cases h2 : u = slot
      · simpa only [captureUpvalue, if_neg h1, if_pos h2] using h
      · simp only [captureUpvalue, if_neg h1, if_neg h2]
        refine List.pairwise_cons.mpr ⟨?_, h⟩
        intro x hx
        rcases List.mem_cons.mp hx with h3 | h3
        · omega
        · have := hu x h3
          omega

/-- On a sorted-descending list that already holds the slot,
`captureUpvalue` returns the existing upvalue and changes nothing. -/
lemma captureUpvalue_of_mem (l : List Nat) (slot : Nat)
    (h : List.Pairwise (· > ·) l) (hmem : slot ∈ l) :
    captureUpvalue l slot = (slot, l) := by
  induction l with
  | nil => cases hmem
  | cons u rest ih =>
    obtain ⟨hu, hrest⟩ := List.pairwise_cons.mp h
    rcases List.mem_cons.mp hmem with h1 | h1
    · simp [captureUpvalue, h1.symm]
    · have hlt : slot < u := hu slot h1
      simp only [captureUpvalue, if_pos hlt]
      rw [ih hrest h1]

/-- On a sorted-descending list, the `while (location >= last)` pop loop of
`closeUpvalues` removes exactly the slots at or above `last`. -/
lemma closeUpvalues_eq_filter (l : List Nat) (last : Nat)
    (h : List.Pairwise (· > ·) l) :
    closeUpvalues l last = l.filter (fun u => u < last) := by
  induction l with
  | nil => simp [closeUpvalues]
  | cons u rest ih =>
    obtain ⟨hu, hrest⟩ := List.pairwise_cons.mp h
    by_cases h1 : last ≤ u
    · rw [List.filter_cons_of_neg (by simpa using h1)]
      simpa only [closeUpvalues, if_pos h1] using ih hrest
    · have h2 : u < last := by omega
      rw [List.filter_cons_of_pos (by simpa using h2)]
      simp only [closeUpvalues, if_neg h1]
      rw [List.filter_eq_self.mpr]
      intro x hx
      have := hu x hx
      simp
      omega

/-- Claim C9: `captureUpvalue` and `closeUpvalues` — the only operations
that touch `vm->openUpvalues` besides `resetStack`, which empties it —
preserve the invariant that the open-upvalue list is strictly descending
in stack slot (hence holds at most one upvalue per slot).  `captureUpvalue`
returns the existing upvalue unchanged when the slot is already open and
otherwise inserts the new upvalue at its sorted position, and
`closeUpvalues` unlinks exactly the upvalues at or above the given slot. -/
theorem openUpvalue_list_invariant (l : List Nat) (slot last : Nat)
    (h : List.Pairwise (· > ·) l) :
    List.Pairwise (· > ·) (captureUpvalue l slot).2 ∧
    slot ∈ (captureUpvalue l slot).2 ∧
    (∀ x ∈ (captureUpvalue l slot).2, x = slot ∨ x ∈ l) ∧
    (slot ∈ l → captureUpvalue l slot = (slot, l)) ∧
    closeUpvalues l last = l.filter (fun u => u < last) ∧
    List.Pairwise (· > ·) (closeUpvalues l last) := by
  refine ⟨captureUpvalue_pairwise l slot h, captureUpvalue_mem_self l slot,
    captureUpvalue_mem l slot, captureUpvalue_of_mem l slot h,
    closeUpvalues_eq_filter l last h, ?_⟩
  rw [closeUpvalues_eq_filter l last h]
  exact h.filter _

/-- Witness for C9 at the concrete sorted list `[5, 3, 1]` with a new
slot 4 and close threshold 3. -/
theorem openUpvalue_list_invariant_witness :
    List.Pairwise (· > ·) (captureUpvalue [5, 3, 1] 4).2 ∧
    4 ∈ (captureUpvalue [5, 3, 1] 4).2 ∧
    (∀ x ∈ (captureUpvalue [5, 3, 1] 4).2, x = 4 ∨ x ∈ [5, 3, 1]) ∧
    (4 ∈ [5, 3, 1] → captureUpvalue [5, 3, 1] 4 = (4, [5, 3, 1])) ∧
    closeUpvalues [5, 3, 1] 3 = [5, 3, 1].filter (fun u => u < 3) ∧
    List.Pairwise (· > ·) (closeUpvalues [5, 3, 1] 3) :=
  openUpvalue_list_invariant [5, 3, 1] 4 3 (by decide)

/-! ## Claims C8 and C10 -/

/-- Claim C8, counterexample: inserting the absent `newKey` into
`tombTable` lands on the tombstone slot 0, yet `count` goes from 1 to 2 —
the source increments on `entry->key == NULL` without the `IS_NIL` value
check, so a new-key insertion into a tombstone slot does NOT leave `count`
unchanged as claimed. -/
theorem tableSet_tombstone_increments_count :
    tombTable.entries.get? 0 = some ⟨none, .vbool true⟩ ∧
    findEntry tombTable.entries newKey = some 0 ∧
    (tableSet tombTable newKey (.vnum 0)).map (fun r => (r.1, r.2.count)) =
      some (true, 2) ∧
    tombTable.count = 1 ∧ (2 : Nat) ≠ 1 := by
  exact ⟨rfl, rfl, rfl, rfl, by decide⟩

/-- Claim C8 (amended): after the optional growth step, `tableSet` bumps
`count` exactly when the probed slot is keyless — i.e. exactly when the
key is not already present — whether that slot is a true empty or a
tombstone; overwriting an existing key leaves `count` unchanged. -/
theorem tableSet_count_spec (t : Table) (k : StrKey) (v : Value)
    (isNew : Bool) (t1 : Table)
    (h : tableSet t k v = some (isNew, t1)) :
    t1.count = (growIfNeeded t).count + (if isNew then 1 else 0) ∧
    (isNew = true ↔ ∃ j e, findEntry (growIfNeeded t).entries k = some j ∧
        (growIfNeeded t).entries.get? j = some e ∧ e.key = none) := by
  simp only [tableSet] at h
  cases hfe : findEntry (growIfNeeded t).entries k with
  | none => rw [hfe] at h; simp at h
  | some idx =>
    rw [hfe] at h
    dsimp only at h
    cases hg : (growIfNeeded t).entries.get? idx with
    | none =>
      rw [hg] at h
      simp only [Option.some.injEq, Prod.mk.injEq] at h
      obtain ⟨hb, ht⟩ := h
      subst hb
      constructor
      · rw [← ht]
        simp
      · constructor
        · intro hfalse; cases hfalse
        · rintro ⟨j, e, hj, hje, _⟩
          cases hj
          rw [hje] at hg
          cases hg
    | some e =>
      rw [hg] at h
      simp only [Option.some.injEq, Prod.mk.injEq] at h
      obtain ⟨hb, ht⟩ := h
      subst hb
      constructor
      · rw [← ht]
        show (if e.key.isNone = true then (growIfNeeded t).count + 1
              else (growIfNeeded t).count) =
            (growIfNeeded t).count + if e.key.isNone = true then 1 else 0
        rcases hk : e.key.isNone <;> simp
      · constructor
        · intro hNew
          exact ⟨idx, e, rfl, hg, Option.isNone_iff_eq_none.mp hNew⟩
        · rintro ⟨j, e1, hj, hje, hk⟩
          cases hj
          rw [hg] at hje
          injection hje with hje
          rw [hje, hk]
          rfl

/-- Witness for C8: inserting a fresh key into an empty table. -/
theorem tableSet_count_spec_witness :
    setTable8.count = (growIfNeeded emptyTable8).count + (if true then 1 else 0) ∧
    (true = true ↔ ∃ j e, findEntry (growIfNeeded emptyTable8).entries freshKey = some j ∧
        (growIfNeeded emptyTable8).entries.get? j = some e ∧ e.key = none) :=
  tableSet_count_spec emptyTable8 freshKey (.vnum 7) true setTable8 rfl

/-! ## Claim C10: probe-loop lemmas -/

/-- Every position of a length-`len` circular walk starting at `start` is
reached within `len` steps. -/
lemma offset_exists (len start i : Nat) (hs : start < len) (hi : i < len) :
    ∃ d, d < len ∧ (start + d) % len = i := by
  have hlen : 0 < len := by omega
  refine ⟨(len + i - start) % len, Nat.mod_lt _ hlen, ?_⟩
  have h1 : (start + (len + i - start) % len) % len
      = (start + (len + i - start)) % len :=
    Nat.ModEq.add_left start (Nat.mod_modEq _ _)
  have h2 : start + (len + i - start) = len + i := by omega
  rw [h1, h2, Nat.add_mod_left, Nat.mod_eq_of_lt hi]

/-- If `k` is absent from the table and a true-empty slot lies within the
walk's remaining fuel, the probe loop of `findEntry` terminates on a
keyless slot (a tombstone passed on the way, or the empty slot itself). -/
lemma findEntryAux_keyless (entries : List Entry) (k : StrKey)
    (hab : keyAbsent entries k) :
    ∀ fuel idx tomb, idx < entries.length →
      (∀ j0, tomb = some j0 →
        ∃ e0, entries.get? j0 = some e0 ∧ e0.key = none) →
      (∃ d, d < fuel ∧ ∃ e, entries.get? ((idx + d) % entries.length) = some e ∧
          e.trueEmpty = true) →
      ∃ j e, findEntryAux entries k fuel idx tomb = some j ∧
        entries.get? j = some e ∧ e.key = none := by
  intro fuel
  induction fuel with
  | zero =>
    rintro idx tomb _ _ ⟨d, hd, _⟩
    omega
  | succ n ih =>
    rintro idx tomb hidx htomb ⟨d, hd, efar, hfar, hfarte⟩
    have hlen : 0 < entries.length := by omega
    obtain ⟨ecur, hcur⟩ : ∃ ecur, entries.get? idx = some ecur := by
      rw [List.get?_eq_get hidx]; exact ⟨_, rfl⟩
    have hd0 : ∀ hne : ecur.trueEmpty ≠ true, d ≠ 0 := by
      intro hne hzero
      apply hne
      rw [hzero, Nat.add_zero, Nat.mod_eq_of_lt hidx, hcur] at hfar
      cases hfar
      exact hfarte
    have hshift : ∀ d1, d = d1 + 1 →
        ∃ e, entries.get? (((idx + 1) % entries.length + d1) % entries.length)
          = some e ∧ e.trueEmpty = true := by
      intro d1 hd1
      refine ⟨efar, ?_, hfarte⟩
      have harith : ((idx + 1) % entries.length + d1) % entries.length
          = (idx + d) % entries.length := by
        have := Nat.ModEq.add_right d1 (Nat.mod_modEq (idx + 1) entries.length)
        calc ((idx + 1) % entries.length + d1) % entries.length
            = (idx + 1 + d1) % entries.length := this
          _ = (idx + d) % entries.length := by rw [hd1]; ring_nf
      rw [harith]
      exact hfar
    rcases hkey : ecur.key with _ | k'
    · rcases hnil : ecur.value.isNilV with _ | _
      · -- keyless, non-nil value: a tombstone; record it and walk on
        have hne : ecur.trueEmpty ≠ true := by
          simp [Entry.trueEmpty, hkey, hnil]
        obtain ⟨d1, hd1⟩ : ∃ d1, d = d1 + 1 := ⟨d - 1, by have := hd0 hne; omega⟩
        obtain ⟨j, e, hres, hje, hjek⟩ := ih ((idx + 1) % entries.length)
          (some (tomb.getD idx)) (Nat.mod_lt _ hlen)
          (by
            rintro j0 hj0
            injection hj0 with hj0
            rcases tomb with _ | j1
            · simp only [Option.getD_none] at hj0
              subst hj0
              exact ⟨ecur, hcur, hkey⟩
            · simp only [Option.getD_some] at hj0
              subst hj0
              exact htomb j1 rfl)
          ⟨d1, by omega, hshift d1 hd1⟩
        refine ⟨j, e, ?_, hje, hjek⟩
        simpa only [findEntryAux, hcur, hkey, hnil] using hres
      · -- a true-empty slot ends the walk
        rcases tomb with _ | j0
        · refine ⟨idx, ecur, ?_, hcur, hkey⟩
          simp only [findEntryAux, hcur, hkey, hnil, eq_self_iff_true, if_true,
            Option.getD_none]
        · obtain ⟨e0, h0, h0k⟩ := htomb j0 rfl
          refine ⟨j0, e0, ?_, h0, h0k⟩
          simp only [findEntryAux, hcur, hkey, hnil, eq_self_iff_true, if_true,
            Option.getD_some]
    · -- a keyed slot: not our key (absence), walk on
      have hkne : k' ≠ k := by
        intro hkk
        exact hab ecur (List.get?_mem hcur) (by rw [hkey, hkk])
      have hne : ecur.trueEmpty ≠ true := by
        simp [Entry.trueEmpty, hkey]
      obtain ⟨d1, hd1⟩ : ∃ d1, d = d1 + 1 := ⟨d - 1, by have := hd0 hne; omega⟩
      obtain ⟨j, e, hres, hje, hjek⟩ := ih ((idx + 1) % entries.length) tomb
        (Nat.mod_lt _ hlen) htomb ⟨d1, by omega, hshift d1 hd1⟩
      refine ⟨j, e, ?_, hje, hjek⟩
      simpa only [findEntryAux, hcur, hkey, if_neg hkne] using hres

/-- `findEntry` for an absent key, on a table with a true-empty slot,
returns a keyless slot. -/
lemma findEntry_keyless (entries : List Entry) (k : StrKey)
    (hab : keyAbsent entries k)
    (hne : ∃ i, i < entries.length ∧
      ∃ e, entries.get? i = some e ∧ e.trueEmpty = true) :
    ∃ j e, findEntry entries k = some j ∧
      entries.get? j = some e ∧ e.key = none := by
  obtain ⟨i, hi, e, he, het⟩ := hne
  have hlen : 0 < entries.length := by omega
  have hs : k.hash % entries.length < entries.length := Nat.mod_lt _ hlen
  obtain ⟨d, hd, hoff⟩ := offset_exists entries.length (k.hash % entries.length) i hs hi
  simp only [findEntry]
  exact findEntryAux_keyless entries k hab entries.length
    (k.hash % entries.length) none hs (by rintro j0 ⟨⟩)
    ⟨d, hd, e, by rw [hoff]; exact he, het⟩

/-- Writing `k` into the keyless slot the probe for absent `k` returned
does not change where the probe stops: the walk re-run on the updated
table finds `k` exactly there.  This is the heart of the
set-then-delete-then-miss argument for `OP_SET_GLOBAL`. -/
lemma findEntryAux_set_self (entries : List Entry) (k : StrKey) (v : Value)
    (hab : keyAbsent entries k) :
    ∀ fuel idx tomb j, idx < entries.length →
      (∀ j0, tomb = some j0 →
        ∃ e0, entries.get? j0 = some e0 ∧ e0.key = none) →
      findEntryAux entries k fuel idx tomb = some j →
      (∃ e, entries.get? j = some e ∧ e.key = none) ∧
      findEntryAux (entries.set j ⟨some k, v⟩) k fuel idx tomb = some j := by
  intro fuel
  induction fuel with
  | zero =>
    intro idx tomb j _ _ h
    simp [findEntryAux] at h
  | succ n ih =>
    intro idx tomb j hidx htomb h
    have hlen : 0 < entries.length := by omega
    have hsetlen : (entries.set j ⟨some k, v⟩).length = entries.length :=
      List.length_set entries j _
    obtain ⟨ecur, hcur⟩ : ∃ ecur, entries.get? idx = some ecur := by
      rw [List.get?_eq_get hidx]; exact ⟨_, rfl⟩
    rcases hkey : ecur.key with _ | k'
    · rcases hnil : ecur.value.isNilV with _ | _
      · -- tombstone: the walk steps on, recording the slot
        simp only [findEntryAux, hcur, hkey, hnil, Bool.false_eq_true,
          if_false] at h
        obtain ⟨hkeyless, hrec⟩ := ih ((idx + 1) % entries.length)
          (some (tomb.getD idx)) j (Nat.mod_lt _ hlen)
          (by
            rintro j0 hj0
            injection hj0 with hj0
            rcases tomb with _ | j1
            · simp only [Option.getD_none] at hj0
              subst hj0
              exact ⟨ecur, hcur, hkey⟩
            · simp only [Option.getD_some] at hj0
              subst hj0
              exact htomb j1 rfl) h
        refine ⟨hkeyless, ?_⟩
        by_cases hij : idx = j
        · -- the updated slot now matches; the re-run stops right here
          subst hij
          have hset : (entries.set idx ⟨some k, v⟩).get? idx
              = some ⟨some k, v⟩ := List.get?_set_eq_of_lt _ hidx
          simp only [findEntryAux, hset, eq_self_iff_true, if_true]
        · have hset : (entries.set j ⟨some k, v⟩).get? idx = entries.get? idx :=
            List.get?_set_ne _ _ (fun hji => hij hji.symm)
          simp only [findEntryAux, hset, hcur, hkey, hnil, Bool.false_eq_true,
            if_false, hsetlen]
          exact hrec
      · -- a true-empty slot: the walk ends with result tomb.getD idx
        simp only [findEntryAux, hcur, hkey, hnil, eq_self_iff_true,
          if_true] at h
        injection h with h
        rcases tomb with _ | j0
        · simp only [Option.getD_none] at h
          subst h
          have hset : (entries.set idx ⟨some k, v⟩).get? idx
              = some ⟨some k, v⟩ := List.get?_set_eq_of_lt _ hidx
          refine ⟨⟨ecur, hcur, hkey⟩, ?_⟩
          simp only [findEntryAux, hset, eq_self_iff_true, if_true]
        · simp only [Option.getD_some] at h
          subst h
          refine ⟨htomb j0 rfl, ?_⟩
          by_cases hij : idx = j0
          · subst hij
            have hset : (entries.set idx ⟨some k, v⟩).get? idx
                = some ⟨some k, v⟩ := List.get?_set_eq_of_lt _ hidx
            simp only [findEntryAux, hset, eq_self_iff_true, if_true]
          · have hset : (entries.set j0 ⟨some k, v⟩).get? idx = entries.get? idx :=
              List.get?_set_ne _ _ (fun hji => hij hji.symm)
            simp only [findEntryAux, hset, hcur, hkey, hnil, eq_self_iff_true,
              if_true, Option.getD_some]
    · -- a keyed slot with another key: the walk steps with the same state
      have hkne : k' ≠ k := by
        intro hkk
        exact hab ecur (List.get?_mem hcur) (by rw [hkey, hkk])
      simp only [findEntryAux, hcur, hkey, if_neg hkne] at h
      obtain ⟨hkeyless, hrec⟩ :=
        ih ((idx + 1) % entries.length) tomb j (Nat.mod_lt _ hlen) htomb h
      refine ⟨hkeyless, ?_⟩
      have hij : idx ≠ j := by
        intro hij
        subst hij
        obtain ⟨e1, he1, he1k⟩ := hkeyless
        rw [hcur] at he1
        injection he1 with he1
        rw [← he1] at he1k
        rw [hkey] at he1k
        cases he1k
      have hset : (entries.set j ⟨some k, v⟩).get? idx = entries.get? idx :=
        List.get?_set_ne _ _ (fun hji => hij hji.symm)
      simp only [findEntryAux, hset, hcur, hkey, if_neg hkne, hsetlen]
      exact hrec

/-- `findEntry` after writing the returned slot: the probe for `k` on the
updated table stops at the very slot that was written. -/
lemma findEntry_set_self (entries : List Entry) (k : StrKey) (v : Value)
    (hab : keyAbsent entries k) (j : Nat)
    (h : findEntry entries k = some j) :
    (∃ e, entries.get? j = some e ∧ e.key = none) ∧
    findEntry (entries.set j ⟨some k, v⟩) k = some j := by
  have hlen : 0 < entries.length := by
    rcases Nat.eq_zero_or_pos entries.length with h0 | h0
    · rw [findEntry, h0] at h
      simp [findEntryAux] at h
    · exact h0
  have hsetlen : (entries.set j ⟨some k, v⟩).length = entries.length :=
    List.length_set entries j _
  have hs : k.hash % entries.length < entries.length := Nat.mod_lt _ hlen
  obtain ⟨hkeyless, hrec⟩ := findEntryAux_set_self entries k v hab
    entries.length (k.hash % entries.length) none j hs (by rintro j0 ⟨⟩)
    (by simpa only [findEntry] using h)
  refine ⟨hkeyless, ?_⟩
  simp only [findEntry, hsetlen]
  exact hrec

/-- Setting one slot raises the non-empty count by at most one. -/
lemma nonEmptyCount_set_le (l : List Entry) :
    ∀ (i : Nat) (a : Entry), nonEmptyCount (l.set i a) ≤ nonEmptyCount l + 1 := by
  induction l with
  | nil => intro i a; simp [List.set, nonEmptyCount]
  | cons x xs ih =>
    intro i a
    cases i with
    | zero =>
      simp only [List.set, nonEmptyCount, List.countP_cons]
      rcases !a.trueEmpty <;> rcases !x.trueEmpty <;> simp <;> omega
    | succ m =>
      simp only [List.set, nonEmptyCount, List.countP_cons]
      have := ih m a
      simp only [nonEmptyCount] at this
      omega

/-- A table with fewer non-empty slots than slots has a true-empty slot. -/
lemma exists_trueEmpty_of_count (entries : List Entry)
    (h : nonEmptyCount entries < entries.length) :
    ∃ i, i < entries.length ∧
      ∃ e, entries.get? i = some e ∧ e.trueEmpty = true := by
  induction entries with
  | nil => simp [nonEmptyCount] at h
  | cons x xs ih =>
    rcases hx : x.trueEmpty with _ | _
    · have hcount : nonEmptyCount (x :: xs) = nonEmptyCount xs + 1 := by
        simp [nonEmptyCount, List.countP_cons, hx]
      rw [hcount, List.length_cons] at h
      obtain ⟨i, hi, e, he, het⟩ := ih (by omega)
      exact ⟨i + 1, by simpa using hi, e, he, het⟩
    · exact ⟨0, by simp, x, rfl, hx⟩

/-- The rebuild loop of `adjustCapacity` keeps the array length. -/
lemma foldl_adjustStep_length (l : List Entry) :
    ∀ acc : List Entry × Nat, (l.foldl adjustStep acc).1.length = acc.1.length := by
  induction l with
  | nil => intro acc; rfl
  | cons e es ih =>
    intro acc
    rw [List.foldl_cons, ih]
    rcases hk : e.key with _ | k
    · simp [adjustStep, hk]
    · rcases hf : findEntry acc.1 k with _ | idx
      · simp [adjustStep, hk, hf]
      · simp [adjustStep, hk, hf]

/-- The rebuild loop never introduces a key absent from both the
accumulator and the source entries. -/
lemma foldl_adjustStep_absent (kk : StrKey) (l : List Entry) :
    ∀ acc : List Entry × Nat, keyAbsent acc.1 kk → keyAbsent l kk →
      keyAbsent (l.foldl adjustStep acc).1 kk := by
  induction l with
  | nil => intro acc hacc _; exact hacc
  | cons e es ih =>
    intro acc hacc hl
    rw [List.foldl_cons]
    refine ih _ ?_ (fun e1 he1 => hl e1 (List.mem_cons_of_mem _ he1))
    rcases hk : e.key with _ | k
    · simpa [adjustStep, hk] using hacc
    · rcases hf : findEntry acc.1 k with _ | idx
      · simpa [adjustStep, hk, hf] using hacc
      · simp only [adjustStep, hk, hf]
        intro e1 he1
        rcases List.mem_or_eq_of_mem_set he1 with h1 | h1
        · exact hacc e1 h1
        · rw [h1]
          intro hcontra
          injection hcontra with hcontra
          exact hl e (List.mem_cons_self _ _) (by rw [hk, hcontra])

/-- The rebuild loop fills at most one slot per source entry. -/
lemma foldl_adjustStep_count (l : List Entry) :
    ∀ acc : List Entry × Nat,
      nonEmptyCount (l.foldl adjustStep acc).1 ≤ nonEmptyCount acc.1 + l.length := by
  induction l with
  | nil => intro acc; simp
  | cons e es ih =>
    intro acc
    rw [List.foldl_cons]
    have hstep : nonEmptyCount (adjustStep acc e).1 ≤ nonEmptyCount acc.1 + 1 := by
      rcases hk : e.key with _ | k
      · simp [adjustStep, hk]
      · rcases hf : findEntry acc.1 k with _ | idx
        · simp [adjustStep, hk, hf]
        · simp only [adjustStep, hk, hf]
          exact nonEmptyCount_set_le _ _ _
    have := ih (adjustStep acc e)
    simp only [List.length_cons]
    omega

/-- The replicated empty array has no non-empty slot. -/
lemma nonEmptyCount_replicate (c : Nat) :
    nonEmptyCount (List.replicate c ⟨none, Value.vnil⟩) = 0 := by
  induction c with
  | zero => rfl
  | succ m ih =>
    rw [List.replicate_succ]
    simp only [nonEmptyCount, List.countP_cons] at ih ⊢
    rw [ih]
    simp [Entry.trueEmpty, Value.isNilV]

/-- `adjustCapacity` yields an array of exactly the requested capacity, in
which an absent key stays absent and at most as many slots are non-empty
as the old table had entries. -/
lemma adjustCapacity_props (t : Table) (c : Nat) (k : StrKey)
    (hab : keyAbsent t.entries k) :
    (adjustCapacity t c).entries.length = c ∧
    keyAbsent (adjustCapacity t c).entries k ∧
    nonEmptyCount (adjustCapacity t c).entries ≤ t.entries.length := by
  refine ⟨?_, ?_, ?_⟩
  · rw [adjustCapacity, foldl_adjustStep_length]
    exact List.length_replicate _ _
  · refine foldl_adjustStep_absent k t.entries _ ?_ hab
    intro e he
    rw [List.eq_of_mem_replicate he]
    rintro ⟨⟩
  · have := foldl_adjustStep_count t.entries (List.replicate c ⟨none, .vnil⟩, 0)
    rw [nonEmptyCount_replicate] at this
    simpa [adjustCapacity] using this

/-- Claim C10 (amended): executing `OP_SET_GLOBAL` with a name absent from
the globals table raises the "Undefined variable" runtime error, and the
binding tentatively inserted by `tableSet` is deleted again before the
error returns, so the failed assignment never defines the variable: a
subsequent lookup of the name still fails.  (The table is not bitwise
"exactly as it was": the insert-then-delete leaves a tombstone, leaves
`count` incremented, and may have grown the array.)  The hypotheses are
the reachable-state invariants of the table: the name is absent, `count`
bounds the number of non-empty slots, and the capacity is 0 or at least
8 (capacities are produced by `GROW_CAPACITY`). -/
theorem opSetGlobal_undefined_never_defines (t : Table) (name : StrKey)
    (v : Value)
    (h1 : keyAbsent t.entries name)
    (h2 : nonEmptyCount t.entries ≤ t.count)
    (h3 : t.entries.length = 0 ∨ 8 ≤ t.entries.length) :
    ∃ t2, opSetGlobal t name v = some (true, t2) ∧
      tableGet t2 name = none := by
  obtain ⟨habsg, hroom⟩ : keyAbsent (growIfNeeded t).entries name ∧
      nonEmptyCount (growIfNeeded t).entries + 1
        < (growIfNeeded t).entries.length := by
    by_cases hg : 4 * (t.count + 1) > 3 * t.entries.length
    · obtain ⟨hlen, habsent, hcount⟩ := adjustCapacity_props t
        (if t.entries.length < 8 then 8 else t.entries.length * 2) name h1
      rw [growIfNeeded, if_pos hg]
      refine ⟨habsent, ?_⟩
      rw [hlen]
      have hcbig : t.entries.length + 1
          < (if t.entries.length < 8 then 8 else t.entries.length * 2) := by
        rcases h3 with h3 | h3
        · rw [if_pos (by omega)]
          omega
        · rw [if_neg (by omega)]
          omega
      omega
    · rw [growIfNeeded, if_neg hg]
      exact ⟨h1, by omega⟩
  obtain ⟨j, e, hfe, hje, hjk⟩ := findEntry_keyless (growIfNeeded t).entries
    name habsg
    (exists_trueEmpty_of_count (growIfNeeded t).entries (by omega))
  obtain ⟨hjlt, -⟩ := List.get?_eq_some.mp hje
  have hsetEq : tableSet t name v
      = some (true, { count := (growIfNeeded t).count + 1,
                      entries := (growIfNeeded t).entries.set j
                        ⟨some name, v⟩ }) := by
    simp only [tableSet, hfe, hje, hjk, Option.isNone_none, if_true]
  obtain ⟨-, hfe2⟩ := findEntry_set_self (growIfNeeded t).entries name v
    habsg j hfe
  have hdelEq : tableDelete
      { count := (growIfNeeded t).count + 1,
        entries := (growIfNeeded t).entries.set j ⟨some name, v⟩ } name
      = (true, { count := (growIfNeeded t).count + 1,
                 entries := (growIfNeeded t).entries.set j
                   ⟨none, Value.vbool true⟩ }) := by
    have hgetj : ((growIfNeeded t).entries.set j ⟨some name, v⟩).get? j
        = some ⟨some name, v⟩ := List.get?_set_eq_of_lt _ hjlt
    simp only [tableDelete, Nat.succ_ne_zero, if_false, hfe2, hgetj,
      List.set_set]
  refine ⟨{ count := (growIfNeeded t).count + 1,
            entries := (growIfNeeded t).entries.set j
              ⟨none, Value.vbool true⟩ }, ?_, ?_⟩
  · simp only [opSetGlobal, hsetEq, hdelEq]
  · have hab2 : keyAbsent ((growIfNeeded t).entries.set j
        ⟨none, Value.vbool true⟩) name := by
      intro e1 he1
      rcases List.mem_or_eq_of_mem_set he1 with hm | hm
      · exact habsg e1 hm
      · rw [hm]
        rintro ⟨⟩
    have hlen2 : ((growIfNeeded t).entries.set j
        ⟨none, Value.vbool true⟩).length = (growIfNeeded t).entries.length :=
      List.length_set _ _ _
    have hcount2 : nonEmptyCount ((growIfNeeded t).entries.set j
        ⟨none, Value.vbool true⟩) < ((growIfNeeded t).entries.set j
          ⟨none, Value.vbool true⟩).length := by
      rw [hlen2]
      have := nonEmptyCount_set_le (growIfNeeded t).entries j
        ⟨none, Value.vbool true⟩
      omega
    obtain ⟨j3, e3, hfe3, hje3, hj3k⟩ := findEntry_keyless _ name hab2
      (exists_trueEmpty_of_count _ hcount2)
    simp only [tableGet, Nat.succ_ne_zero, if_false, hfe3, hje3, hj3k]

/-- Witness for C10: assigning to an undefined global of an empty globals
table errors out and leaves the name undefined. -/
theorem opSetGlobal_undefined_never_defines_witness :
    ∃ t2, opSetGlobal initTable ⟨5, 3⟩ (.vnum 1) = some (true, t2) ∧
      tableGet t2 ⟨5, 3⟩ = none :=
  opSetGlobal_undefined_never_defines initTable ⟨5, 3⟩ (.vnum 1)
    (by intro e he; simp [initTable] at he)
    (by simp [nonEmptyCount, initTable])
    (Or.inl rfl)

/-- Claim C10, counterexample to the letter of the claim: the globals
table is NOT left exactly as it was before the failed `OP_SET_GLOBAL` —
on an empty table the instruction errors out but leaves `count = 1` and a
grown 8-slot array holding a tombstone, where before `count = 0` with no
array. -/
theorem opSetGlobal_changes_table_shape :
    (opSetGlobal initTable ⟨5, 3⟩ (.vnum 1)).map
        (fun r => (r.1, r.2.count, r.2.entries.length)) = some (true, 1, 8) ∧
    initTable.count = 0 ∧ initTable.entries.length = 0 ∧
    (1 : Nat) ≠ 0 := by
  exact ⟨rfl, rfl, rfl, by decide⟩

end CxxLox
